import Mathlib

/-
Verification of kicad-xilinx-symgen (src/main.rs): a shallow embedding of
the table-parsing state machine, record construction, grouping/sorting,
and the KiCad symbol-library emission geometry, together with proofs of
the specification's claims about them.

Strings are modelled as lists of characters (`Str`).  The regex crate's
`\s` class is modelled by `isWS` on the ASCII whitespace characters
(space, tab, CR, LF, vertical tab, form feed); the inputs the program is
designed for are ASCII datasheet text, and no claim depends on exotic
Unicode whitespace.  Rust's `HashMap<String, String>` is modelled as an
association list with unique keys (`insertField` replaces the entry of an
existing key, as `HashMap::insert` does); the hash map's unspecified
iteration order is modelled as first-seen key order.  A Rust panic
(`unwrap` on a missing field, out-of-bounds indexing) is modelled by the
`Option`/`Except`-style `none` results and, for the post-parse pipeline,
by an explicit event trace.
-/

namespace SymGen

/-- A string, modelled as its list of characters. -/
abbrev Str := List Char

/-- The character class matched by the regex `\s` (ASCII part): the model
of the whitespace notion used by `re_blank` (`^\s*$`), the splitter
`re_spilt_header` (`\s{2,}`) and `str::trim` in src/main.rs. -/
def isWS (c : Char) : Bool :=
  c == ' ' || c == '\t' || c == '\n' || c == '\r' || c == '\x0b' || c == '\x0c'

/-- `re_blank.is_match(line)` for `re_blank = ^\s*$` (src/main.rs line 59):
the line consists only of whitespace (the empty line included). -/
def isBlank (l : Str) : Bool := l.all isWS

/-- Rust's `str::trim`: drop leading and trailing whitespace. -/
def trimStr (l : Str) : Str :=
  ((l.dropWhile isWS).reverse.dropWhile isWS).reverse

/-- Worker for `splitWS`: `cur` is the current field (reversed), `pend` is
the pending run of whitespace characters just read (reversed), `acc` the
fields emitted so far (reversed).  A run of two or more whitespace
characters separates fields; a lone whitespace character stays inside its
field, exactly as the regex `\s{2,}` matches. -/
def splitWSGo : List Char → List Char → List Char → List Str → List Str
  | [], cur, pend, acc =>
      if 2 ≤ pend.length then (([] : Str) :: cur.reverse :: acc).reverse
      else ((pend ++ cur).reverse :: acc).reverse
  | c :: cs, cur, pend, acc =>
      if isWS c then splitWSGo cs cur (c :: pend) acc
      else if 2 ≤ pend.length then splitWSGo cs [c] [] (cur.reverse :: acc)
      else splitWSGo cs (c :: (pend ++ cur)) [] acc

/-- `re_spilt_header.split(s)` for `re_spilt_header = \s{2,}`
(src/main.rs line 60): split on each maximal run of at least two
whitespace characters.  On the empty string it yields one empty field,
as `Regex::split` does. -/
def splitWS (l : Str) : List Str := splitWSGo l [] [] []

/-- `struct Record { fields: HashMap<String, String> }` (src/main.rs
lines 29-31), with the hash map modelled as an association list whose
keys are unique. -/
structure Record where
  fields : List (Str × Str)
deriving DecidableEq, Repr, Inhabited

/-- `HashMap::insert`: replace the value of an existing key (last value
wins), otherwise append a new entry. -/
def insertField : List (Str × Str) → Str → Str → List (Str × Str)
  | [], k, v => [(k, v)]
  | p :: fs, k, v => if p.1 = k then (k, v) :: fs else p :: insertField fs k v

/-- `HashMap::get`: look a key up. -/
def getField : List (Str × Str) → Str → Option Str
  | [], _ => none
  | p :: fs, k => if p.1 = k then some p.2 else getField fs k

/-- `record.fields.get(k)` on a `Record`. -/
def Record.get (r : Record) (k : Str) : Option Str := getField r.fields k

/-- `Record::new` (src/main.rs lines 34-40): zip the header list with the
split values and insert each pair into the field map. -/
def Record.new (headers : List Str) (values : List Str) : Record :=
  ⟨(headers.zip values).foldl (fun fs p => insertField fs p.1 p.2) []⟩

/-- `enum States` (src/main.rs lines 22-27). -/
inductive States where
  | SeekTable
  | ReadHeader
  | ReadTable
  | END
deriving DecidableEq, Repr

/-- The mutable state of the scanning loop in `main` (src/main.rs lines
62-66): the current `state`, the parsed `headers`, the accepted
`records` and the `pins_count` reported at the end.  (The `index`
variable of the source is write-only and not modelled.) -/
structure ScanSt where
  state : States
  headers : List Str
  records : List Record
  pinsCount : Nat
deriving DecidableEq, Repr

/-- The initial scanner state (src/main.rs lines 62-66). -/
def initSt : ScanSt := ⟨States.SeekTable, [], [], 0⟩

/-- One iteration of the `while let Some((line_num, line))` loop
(src/main.rs lines 73-110), on one input line.
* `SeekTable`: a blank line moves to `ReadHeader` (the line is consumed,
  nothing else changes); any other line is skipped.
* `ReadHeader`: the line, trimmed, is split into the header list; the
  state becomes `ReadTable` unconditionally.
* `ReadTable`: a blank line moves to `END`; otherwise the trimmed line is
  split, and a `Record` is pushed exactly when the number of split values
  equals the number of headers (a mismatching line changes nothing).
* `END`: `pins_count` is set to the number of records. -/
def scanStep (s : ScanSt) (line : Str) : ScanSt :=
  match s.state with
  | States.SeekTable =>
      if isBlank line then ⟨States.ReadHeader, s.headers, s.records, s.pinsCount⟩ else s
  | States.ReadHeader =>
      ⟨States.ReadTable, splitWS (trimStr line), s.records, s.pinsCount⟩
  | States.ReadTable =>
      if isBlank line then ⟨States.END, s.headers, s.records, s.pinsCount⟩
      else
        let values := splitWS (trimStr line)
        if values.length = s.headers.length then
          ⟨States.ReadTable, s.headers, s.records ++ [Record.new s.headers values], s.pinsCount⟩
        else s
  | States.END => ⟨States.END, s.headers, s.records, s.records.length⟩

/-- Run the scanning loop over the whole list of input lines. -/
def runScanner (lines : List Str) : ScanSt := lines.foldl scanStep initSt

/-- Spec-side counting function for the cardinality claim, written from
the spec's words: the number of lines that are processed while the
machine is in the `ReadTable` state, are not blank, and whose trimmed
split-field count equals the header count. -/
def specMatchCount : ScanSt → List Str → Nat
  | _, [] => 0
  | s, l :: ls =>
      (if s.state = States.ReadTable ∧ isBlank l = false ∧
          (splitWS (trimStr l)).length = s.headers.length then 1 else 0)
      + specMatchCount (scanStep s l) ls

/-- Position of a state in the forward order
`SeekTable → ReadHeader → ReadTable → END`. -/
def stateRank : States → Nat
  | States.SeekTable => 0
  | States.ReadHeader => 1
  | States.ReadTable => 2
  | States.END => 3

/-- Lexicographic (codepoint, equivalently UTF-8 byte) non-strict order
on strings: the `≤` direction of Rust's `str::cmp` used by the
`sort_by` comparator (src/main.rs lines 159-164). -/
def lexLe : Str → Str → Bool
  | [], _ => true
  | _ :: _, [] => false
  | a :: as, b :: bs =>
      if a.toNat < b.toNat then true
      else if b.toNat < a.toNat then false
      else lexLe as bs

/-- The string value a record carries for a field (the `unwrap`ped value;
the claims using this supply the hypothesis that the field is present,
under which the default is never taken). -/
def fieldVal (r : Record) (k : Str) : Str := (Record.get r k).getD []

/-- The `sort_by` comparator of src/main.rs lines 159-164, as a boolean
`≤`: compare the sort field's values lexicographically. -/
def recLe (sf : Str) (a b : Record) : Bool := lexLe (fieldVal a sf) (fieldVal b sf)

/-- Insert an element into a (sorted) list, before the first element it
compares `≤` to: the insertion step of a stable sort. -/
def insertLe {α : Type} (le : α → α → Bool) (x : α) : List α → List α
  | [] => [x]
  | y :: ys => if le x y then x :: y :: ys else y :: insertLe le x ys

/-- Stable insertion sort.  `slice::sort_by` is a stable sort, and the
stable sort of a list under a total preorder is unique, so this is a
faithful model of `group.sort_by(comparator)` (src/main.rs line 159). -/
def isortLe {α : Type} (le : α → α → Bool) : List α → List α
  | [] => []
  | x :: xs => insertLe le x (isortLe le xs)

/-- Sort one group's records by the chosen sort field (src/main.rs
lines 159-164). -/
def sortGroup (sf : Str) (g : List Record) : List Record := isortLe (recLe sf) g

/-- `groups.entry(key).or_insert_with(Vec::new).push(record)`
(src/main.rs line 135): append the record to the group of key `k`,
creating the group at the end (first-seen order) if the key is new. -/
def updateGroups : List (Str × List Record) → Str → Record → List (Str × List Record)
  | [], k, r => [(k, [r])]
  | p :: gs, k, r =>
      if p.1 = k then (p.1, p.2 ++ [r]) :: gs else p :: updateGroups gs k r

/-- The grouping loop (src/main.rs lines 133-136): for each record in
order, `record.fields.get(group_field).unwrap()` is its key (a missing
group field is the `unwrap` panic, modelled as `none`), and the record
is pushed onto its key's group. -/
def groupRecords (gf : Str) : List Record → List (Str × List Record) →
    Option (List (Str × List Record))
  | [], gs => some gs
  | r :: rs, gs =>
      match Record.get r gf with
      | none => none
      | some k => groupRecords gf rs (updateGroups gs k r)

/-- Group a record sequence by the field `gf`, starting from the empty
map, as the grouping loop does. -/
def groupAll (gf : Str) (records : List Record) : Option (List (Str × List Record)) :=
  groupRecords gf records []

/-- The field name `"Pin"`. -/
def pinKey : Str := ['P', 'i', 'n']

/-- The field name `"Pin Name"`. -/
def pinNameKey : Str := ['P', 'i', 'n', ' ', 'N', 'a', 'm', 'e']

/-- One emitted `X` (pin) line of the library (src/main.rs lines
202-205): display name, designator, x position, the printed (already
negated) y position, orientation letter and unit number.  The fixed
length 150, sizes 50 50 and electrical code `P` carry no information
per pin and are not modelled. -/
structure Pin where
  name : Str
  num : Str
  posx : Nat
  posy : Int
  orient : Char
  unitNo : Nat
deriving DecidableEq, Repr, Inhabited

/-- The geometry of the pin at index `i` of a group of `n` records
(src/main.rs lines 195-201): the first `n / 2` members sit on the left
edge (x = 0) facing right (`R`) at printed y `-(i*100)`; the rest sit on
the right edge (x = 3000) facing left (`L`) at printed y
`-((i - n/2)*100)`. -/
def pinOf (n u i : Nat) (name num : Str) : Pin :=
  if i < n / 2 then ⟨name, num, 0, -((i * 100 : Nat) : Int), 'R', u⟩
  else ⟨name, num, 3000, -(((i - n / 2) * 100 : Nat) : Int), 'L', u⟩

/-- One emitted unit: the `S` body line's half-height (the printed
bottom edge is `-(halfHeight)`, src/main.rs lines 187-191), the unit
number and the pins. -/
structure SymUnit where
  halfHeight : Nat
  unitNo : Nat
  pins : List Pin
deriving DecidableEq, Repr, Inhabited

/-- The pin loop `for (i, record) in group.iter().enumerate()`
(src/main.rs lines 192-206) for a group of `n` records, from index `i`
on: `record.fields.get("Pin").unwrap()` and
`record.fields.get("Pin Name").unwrap()` (a missing field is the panic,
modelled as `none`), then the pin with the geometry of `pinOf`. -/
def emitPins (n u : Nat) : List Record → Nat → Option (List Pin)
  | [], _ => some []
  | r :: rs, i =>
      match Record.get r pinKey, Record.get r pinNameKey with
      | some num, some name =>
          match emitPins n u rs (i + 1) with
          | some ps => some (pinOf n u i name num :: ps)
          | none => none
      | _, _ => none

/-- Emission of one group as one unit (src/main.rs lines 186-209): the
body half-height is `group.len() / 2 * 100 + 50` and the pins are laid
out by `emitPins`. -/
def emitUnit (u : Nat) (g : List Record) : Option SymUnit :=
  match emitPins g.length u g 0 with
  | some ps => some ⟨g.length / 2 * 100 + 50, u, ps⟩
  | none => none

/-- The emission loop over all groups (src/main.rs lines 186-209),
`unit_number` starting at `u` and incremented once per group.  Any
panic (`none`) aborts the whole emission: in the source the library
text lives only in the in-memory string `kicad_lib`, and `output.lib`
is created and written only after the loop finishes (lines 216-218), so
a panic mid-loop produces no output at all. -/
def emitAll : List (Str × List Record) → Nat → Option (List SymUnit)
  | [], _ => some []
  | g :: gs, u =>
      match emitUnit u g.2 with
      | some su =>
          match emitAll gs (u + 1) with
          | some sus => some (su :: sus)
          | none => none
      | none => none

/-- Emit the whole library: all groups, unit numbers from 1
(src/main.rs line 174). -/
def emitLibrary (gs : List (Str × List Record)) : Option (List SymUnit) :=
  emitAll gs 1

/-- Observable events of the post-parse pipeline, for the control-flow
order of src/main.rs lines 124-218. -/
inductive Ev where
  | reportInvalid
  | groupsFormed
  | sorted
  | emitted
  | panicked
deriving DecidableEq, Repr

/-- The control flow of `main` after parsing (src/main.rs lines
124-218), as the sequence of observable events, given the header list,
the parsed records and the two selector integers:
1. `if field_index >= headers.len()` only prints `Invalid field index`
   (`reportInvalid`) and continues (line 124-126);
2. `&headers[field_index]` panics when out of range (line 128);
3. the grouping loop runs (`groupsFormed`, lines 131-136; a record
   missing the group field is an `unwrap` panic);
4. `if sort_field_index >= headers.len()` again only reports (146-148);
5. `&headers[sort_field_index]` panics when out of range (line 150);
6. the groups are sorted (`sorted`; a comparator `unwrap` panics when a
   group of at least two records has a member missing the sort field)
   and the library is emitted (`emitted`) unless a pin field is missing
   (a panic before any output, see `emitAll`). -/
def pipelineTrace (headers : List Str) (records : List Record)
    (gIdx sIdx : Nat) : List Ev :=
  let e1 : List Ev := if headers.length ≤ gIdx then [Ev.reportInvalid] else []
  match headers.get? gIdx with
  | none => e1 ++ [Ev.panicked]
  | some gf =>
      match groupAll gf records with
      | none => e1 ++ [Ev.panicked]
      | some gs =>
          let e2 := e1 ++ [Ev.groupsFormed]
          let e3 := e2 ++ (if headers.length ≤ sIdx then [Ev.reportInvalid] else [])
          match headers.get? sIdx with
          | none => e3 ++ [Ev.panicked]
          | some sf =>
              if gs.all (fun p => p.2.length ≤ 1 ||
                  p.2.all (fun r => (Record.get r sf).isSome)) then
                match emitLibrary (gs.map (fun p => (p.1, sortGroup sf p.2))) with
                | none => e3 ++ [Ev.sorted, Ev.panicked]
                | some _ => e3 ++ [Ev.sorted, Ev.emitted]
              else e3 ++ [Ev.panicked]

/-- A concrete input: one noise line, a blank line, a header line
`P  Q`, one data line `1  2`, and the terminating blank line (which is
also the last line of the input). -/
def exLines : List Str := [['x'], [], ['P', ' ', ' ', 'Q'], ['1', ' ', ' ', '2'], []]

/-- A concrete input whose header line repeats one name: `A  A`. -/
def exLines9 : List Str := [[], ['A', ' ', ' ', 'A'], ['1', ' ', ' ', '2'], []]

/-- A concrete mid-scan state: in `ReadTable` with two headers. -/
def exStRT : ScanSt := ⟨States.ReadTable, [pinKey, pinNameKey], [], 0⟩

/-- A concrete non-blank line that splits into one field. -/
def exMismatchLine : Str := ['x']

/-- A concrete non-blank prefix for the seek phase. -/
def exPre : List Str := [['x']]

/-- A concrete header line `A  B`. -/
def exHdrLine : Str := ['A', ' ', ' ', 'B']

/-- A concrete record with `Pin = 1`, `Pin Name = A`. -/
def rEx1 : Record := ⟨[(pinKey, ['1']), (pinNameKey, ['A'])]⟩

/-- A concrete record with `Pin = 2`, `Pin Name = B`. -/
def rEx2 : Record := ⟨[(pinKey, ['2']), (pinNameKey, ['B'])]⟩

/-- A concrete record with `Pin = 3`, `Pin Name = C`. -/
def rEx3 : Record := ⟨[(pinKey, ['3']), (pinNameKey, ['C'])]⟩

/-- A concrete group of three records. -/
def gEx3 : List Record := [rEx1, rEx2, rEx3]

/-- The unit the emitter produces for `gEx3` as unit 1: half-height 150,
one right-facing pin on the left edge and two left-facing pins on the
right edge. -/
def suEx3 : SymUnit :=
  ⟨150, 1,
   [⟨['A'], ['1'], 0, 0, 'R', 1⟩,
    ⟨['B'], ['2'], 3000, 0, 'L', 1⟩,
    ⟨['C'], ['3'], 3000, -100, 'L', 1⟩]⟩

/-- A concrete two-record group whose `Pin Name` values are out of
order. -/
def gEx4 : List Record := [⟨[(pinNameKey, ['B'])]⟩, ⟨[(pinNameKey, ['A'])]⟩]

/-- The field name `B` used as a concrete grouping field. -/
def bKey : Str := ['B']

/-- Concrete records carrying field `B` with values 0, 0, 1. -/
def rB0a : Record := ⟨[(bKey, ['0']), (pinKey, ['1'])]⟩

/-- Second concrete record with `B = 0`. -/
def rB0b : Record := ⟨[(bKey, ['0']), (pinKey, ['2'])]⟩

/-- Concrete record with `B = 1`. -/
def rB1 : Record := ⟨[(bKey, ['1']), (pinKey, ['3'])]⟩

/-- The record sequence grouped in the witnesses. -/
def recsEx : List Record := [rB0a, rB0b, rB1]

/-- The grouping of `recsEx` by field `B`. -/
def gsEx : List (Str × List Record) := [(['0'], [rB0a, rB0b]), (['1'], [rB1])]

/-- A concrete grouping whose single record lacks a `Pin Name` field. -/
def gsBad : List (Str × List Record) := [(['0'], [⟨[(pinKey, ['1'])]⟩])]

/-- The header list `[Pin, Pin Name]` used with the pipeline trace. -/
def pHeaders : List Str := [pinKey, pinNameKey]

/-- One scanner step changes the number of stored records by exactly the
contribution the cardinality spec assigns to the processed line. -/
theorem scanStep_records_len (s : ScanSt) (l : Str) :
    (scanStep s l).records.length =
      s.records.length + (if s.state = States.ReadTable ∧ isBlank l = false ∧
          (splitWS (trimStr l)).length = s.headers.length then 1 else 0) := by
  obtain ⟨st, hd, rc, pc⟩ := s
  cases st <;> by_cases hb : isBlank l <;>
    by_cases hl : (splitWS (trimStr l)).length = hd.length <;>
    simp [scanStep, hb, hl]

/-- Running the scanner adds `specMatchCount` records to any starting
state. -/
theorem foldl_records_len (lines : List Str) : ∀ s : ScanSt,
    (List.foldl scanStep s lines).records.length =
      s.records.length + specMatchCount s lines := by
  induction lines with
  | nil => intro s; simp [specMatchCount]
  | cons l ls ih =>
      intro s
      rw [List.foldl_cons, ih (scanStep s l)]
      have h := scanStep_records_len s l
      simp only [specMatchCount]
      omega

/-- C1: the number of Records produced by the scanner equals the number
of non-blank lines processed in the `ReadTable` state whose split-field
count (splitting the trimmed line on runs of two or more whitespace
characters) equals the header count; and a non-blank `ReadTable` line
with a mismatched field count leaves the scanner state completely
unchanged — no Record, and no error (the scanner is a total function
with no error channel). -/
theorem c1_record_cardinality :
    (∀ lines, (runScanner lines).records.length = specMatchCount initSt lines) ∧
    (∀ s line, s.state = States.ReadTable → isBlank line = false →
      (splitWS (trimStr line)).length ≠ s.headers.length → scanStep s line = s) := by
  constructor
  · intro lines
    have h := foldl_records_len lines initSt
    simpa [runScanner, initSt] using h
  · intro s line hst hb hne
    obtain ⟨st, hd, rc, pc⟩ := s
    cases st <;> simp_all [scanStep]

/-- Witness for C1 at the concrete input `exLines` and a concrete
mismatching line. -/
theorem c1_record_cardinality_witness :
    (runScanner exLines).records.length = specMatchCount initSt exLines ∧
    scanStep exStRT exMismatchLine = exStRT :=
  ⟨c1_record_cardinality.1 exLines,
   c1_record_cardinality.2 exStRT exMismatchLine (by decide) (by decide) (by decide)⟩

/-- A non-blank line leaves the `SeekTable` state untouched. -/
theorem seek_skip (s : ScanSt) (l : Str) (hst : s.state = States.SeekTable)
    (hb : isBlank l = false) : scanStep s l = s := by
  obtain ⟨st, hd, rc, pc⟩ := s
  cases st <;> simp_all [scanStep]

/-- A run of non-blank lines leaves the `SeekTable` state untouched. -/
theorem seek_foldl (pre : List Str) : ∀ s : ScanSt, s.state = States.SeekTable →
    (∀ l ∈ pre, isBlank l = false) → List.foldl scanStep s pre = s := by
  induction pre with
  | nil => intro s _ _; rfl
  | cons l ls ih =>
      intro s hs hpre
      rw [List.foldl_cons, seek_skip s l hs (hpre l (by simp))]
      exact ih s hs (fun x hx => hpre x (by simp [hx]))

/-- C6: the scanner stays in `SeekTable`, recording nothing, over any
prefix of non-blank lines; the first whitespace-only (possibly empty)
line moves it to `ReadHeader` while still recording nothing (the blank
line is consumed, not treated as data); the very next line — whatever it
is — becomes the header list by trimming and splitting on runs of two or
more whitespace characters, and the machine moves unconditionally to
`ReadTable`; and every step of the machine is forward: the state's rank
in `SeekTable → ReadHeader → ReadTable → END` never decreases. -/
theorem c6_locate_header :
    (∀ pre b h, (∀ l ∈ pre, isBlank l = false) → isBlank b = true →
      (List.foldl scanStep initSt pre).state = States.SeekTable ∧
      (List.foldl scanStep initSt pre).records = [] ∧
      (scanStep (List.foldl scanStep initSt pre) b).state = States.ReadHeader ∧
      (scanStep (List.foldl scanStep initSt pre) b).records = [] ∧
      (scanStep (scanStep (List.foldl scanStep initSt pre) b) h).state = States.ReadTable ∧
      (scanStep (scanStep (List.foldl scanStep initSt pre) b) h).headers =
        splitWS (trimStr h)) ∧
    (∀ s line, stateRank s.state ≤ stateRank (scanStep s line).state) := by
  constructor
  · intro pre b h hpre hb
    rw [seek_foldl pre initSt rfl hpre]
    simp [scanStep, initSt, hb]
  · intro s line
    obtain ⟨st, hd, rc, pc⟩ := s
    cases st <;> by_cases hb : isBlank line <;>
      by_cases hl : (splitWS (trimStr line)).length = hd.length <;>
      simp [scanStep, stateRank, hb, hl]

/-- Witness for C6 at a concrete prefix, blank line and header line, and
a concrete forward step. -/
theorem c6_locate_header_witness :
    ((List.foldl scanStep initSt exPre).state = States.SeekTable ∧
     (List.foldl scanStep initSt exPre).records = [] ∧
     (scanStep (List.foldl scanStep initSt exPre) []).state = States.ReadHeader ∧
     (scanStep (List.foldl scanStep initSt exPre) []).records = [] ∧
     (scanStep (scanStep (List.foldl scanStep initSt exPre) []) exHdrLine).state =
       States.ReadTable ∧
     (scanStep (scanStep (List.foldl scanStep initSt exPre) []) exHdrLine).headers =
       splitWS (trimStr exHdrLine)) ∧
    stateRank exStRT.state ≤ stateRank (scanStep exStRT exMismatchLine).state :=
  ⟨c6_locate_header.1 exPre [] exHdrLine (by decide) (by decide),
   c6_locate_header.2 exStRT exMismatchLine⟩

/-- A step taken in the `END` state only sets the pin count to the
record count. -/
theorem end_step (s : ScanSt) (l : Str) (h : s.state = States.END) :
    scanStep s l = ⟨States.END, s.headers, s.records, s.records.length⟩ := by
  obtain ⟨st, hd, rc, pc⟩ := s
  cases st <;> simp_all [scanStep]

/-- After at least one line is processed in the `END` state, the pin
count equals the record count, and stays so. -/
theorem end_run (extra : List Str) : ∀ s : ScanSt, s.state = States.END → extra ≠ [] →
    (List.foldl scanStep s extra).pinsCount =
      (List.foldl scanStep s extra).records.length := by
  induction extra with
  | nil => intro s _ hne; exact absurd rfl hne
  | cons x xs ih =>
      intro s hs _
      rw [List.foldl_cons, end_step s x hs]
      cases xs with
      | nil => rfl
      | cons y ys =>
          exact ih ⟨States.END, s.headers, s.records, s.records.length⟩ rfl (by simp)

/-- C8 (amended): the `pins parsed` count is set only when a line is
processed while the machine is in the `End` state.  Whenever the input
continues past the table-terminating blank line — that is, at least one
further line is processed in the `End` state — the reported count equals
the number of Records parsed, and this is what the final summary
prints.  (If the input ends exactly at the terminating blank line the
count remains 0; see the counterexample.) -/
theorem c8_pins_count (lines extra : List Str)
    (hend : (runScanner lines).state = States.END) (hne : extra ≠ []) :
    (List.foldl scanStep (runScanner lines) extra).pinsCount =
      (List.foldl scanStep (runScanner lines) extra).records.length :=
  end_run extra (runScanner lines) hend hne

/-- Witness for C8 (amended) at the concrete input `exLines` followed by
one further line. -/
theorem c8_pins_count_witness :
    (runScanner exLines).state = States.END ∧ ([['x']] : List Str) ≠ [] ∧
    (List.foldl scanStep (runScanner exLines) [['x']]).pinsCount =
      (List.foldl scanStep (runScanner exLines) [['x']]).records.length :=
  ⟨by decide, by decide, c8_pins_count exLines [['x']] (by decide) (by decide)⟩

/-- C8 counterexample: on an input that ends exactly at the
table-terminating blank line, the scanner reaches the `End` state having
parsed one Record, yet the reported `pins parsed` count is 0, not 1 —
the count is set only when a further line is processed in the `End`
state, so the claim as stated fails on this input. -/
theorem c8_counterexample :
    (runScanner exLines).state = States.END ∧
    (runScanner exLines).records.length = 1 ∧
    (runScanner exLines).pinsCount = 0 := by decide

/-- Lexicographic `≤` on strings is total. -/
theorem lexLe_total : ∀ a b : Str, lexLe a b = true ∨ lexLe b a = true := by
  intro a
  induction a with
  | nil => intro b; left; rfl
  | cons c cs ih =>
      intro b
      cases b with
      | nil => right; rfl
      | cons d ds =>
          by_cases h1 : c.toNat < d.toNat
          · left; simp [lexLe, h1]
          · by_cases h2 : d.toNat < c.toNat
            · right; simp [lexLe, h1, h2]
            · rcases ih ds with h | h
              · left; simp [lexLe, h1, h2, h]
              · right; simp [lexLe, h1, h2, h]

/-- Lexicographic `≤` on strings is transitive. -/
theorem lexLe_trans : ∀ a b c : Str,
    lexLe a b = true → lexLe b c = true → lexLe a c = true := by
  intro a
  induction a with
  | nil => intro b c _ _; rfl
  | cons x xs ih =>
      intro b c hab hbc
      cases b with
      | nil => exact absurd hab (by simp [lexLe])
      | cons y ys =>
          cases c with
          | nil => exact absurd hbc (by simp [lexLe])
          | cons z zs =>
              simp only [lexLe] at hab hbc ⊢
              by_cases hxy : x.toNat < y.toNat
              · by_cases hyz : y.toNat < z.toNat
                · simp [show x.toNat < z.toNat by omega]
                · simp only [hyz, if_false] at hbc
                  by_cases hzy : z.toNat < y.toNat
                  · simp [hyz, hzy] at hbc
                  · simp [show x.toNat < z.toNat by omega]
              · simp only [hxy, if_false] at hab
                by_cases hyx : y.toNat < x.toNat
                · simp [hxy, hyx] at hab
                · simp only [hyx, if_false] at hab
                  by_cases hyz : y.toNat < z.toNat
                  · simp [show x.toNat < z.toNat by omega]
                  · simp only [hyz, if_false] at hbc
                    by_cases hzy : z.toNat < y.toNat
                    · simp [hyz, hzy] at hbc
                    · have hxz : ¬ x.toNat < z.toNat := by omega
                      have hzx : ¬ z.toNat < x.toNat := by omega
                      simp only [hxz, hzx, if_false]
                      exact ih ys zs (by simpa [hxy, hyx] using hab)
                        (by simpa [hyz, hzy] using hbc)

/-- Membership in an insertion. -/
theorem mem_insertLe {α : Type} (le : α → α → Bool) (x : α) :
    ∀ (l : List α) (a : α), a ∈ insertLe le x l ↔ a = x ∨ a ∈ l := by
  intro l
  induction l with
  | nil => intro a; simp [insertLe]
  | cons y ys ih =>
      intro a
      simp only [insertLe]
      by_cases h : le x y
      · rw [if_pos h]
        simp only [List.mem_cons]
      · rw [if_neg h]
        simp only [List.mem_cons, ih]
        tauto

/-- Inserting into a list sorted under a total transitive boolean `≤`
keeps it sorted. -/
theorem pairwise_insertLe {α : Type} (le : α → α → Bool)
    (htot : ∀ a b, le a b = true ∨ le b a = true)
    (htrans : ∀ a b c, le a b = true → le b c = true → le a c = true)
    (x : α) : ∀ l : List α, List.Pairwise (fun a b => le a b = true) l →
      List.Pairwise (fun a b => le a b = true) (insertLe le x l) := by
  intro l
  induction l with
  | nil => intro _; simp [insertLe]
  | cons y ys ih =>
      intro hp
      rw [List.pairwise_cons] at hp
      obtain ⟨hy, hys⟩ := hp
      simp only [insertLe]
      by_cases h : le x y
      · rw [if_pos h]
        refine List.Pairwise.cons ?_ (List.Pairwise.cons hy hys)
        intro b hb
        rcases List.mem_cons.mp hb with rfl | hb
        · exact h
        · exact htrans x y b h (hy b hb)
      · rw [if_neg h]
        refine List.Pairwise.cons ?_ (ih hys)
        intro b hb
        rcases (mem_insertLe le x ys b).mp hb with heq | hb
        · rw [heq]
          rcases htot x y with h1 | h1
          · exact absurd h1 h
          · exact h1
        · exact hy b hb

/-- The insertion sort's output is sorted under a total transitive
boolean `≤`. -/
theorem pairwise_isortLe {α : Type} (le : α → α → Bool)
    (htot : ∀ a b, le a b = true ∨ le b a = true)
    (htrans : ∀ a b c, le a b = true → le b c = true → le a c = true) :
    ∀ l : List α, List.Pairwise (fun a b => le a b = true) (isortLe le l) := by
  intro l
  induction l with
  | nil => simp [isortLe]
  | cons x xs ih =>
      simp only [isortLe]
      exact pairwise_insertLe le htot htrans x (isortLe le xs) ih

/-- Sorting a sorted list changes nothing. -/
theorem isortLe_of_pairwise {α : Type} (le : α → α → Bool) :
    ∀ l : List α, List.Pairwise (fun a b => le a b = true) l → isortLe le l = l := by
  intro l
  induction l with
  | nil => intro _; rfl
  | cons x xs ih =>
      intro hp
      rw [List.pairwise_cons] at hp
      obtain ⟨hx, hxs⟩ := hp
      simp only [isortLe, ih hxs]
      cases xs with
      | nil => rfl
      | cons y ys => simp [insertLe, hx y (by simp)]

/-- C4: in every group whose records all carry the chosen sort field,
the sorted group is in ascending lexicographic (codepoint/byte) order on
that field's string value, and applying the sort a second time yields
the identical sequence. -/
theorem c4_group_sort (sf : Str) (g : List Record)
    (_hpres : ∀ r ∈ g, (Record.get r sf).isSome = true) :
    List.Pairwise
      (fun a b => lexLe (fieldVal a sf) (fieldVal b sf) = true) (sortGroup sf g) ∧
    sortGroup sf (sortGroup sf g) = sortGroup sf g := by
  have htot : ∀ a b : Record, recLe sf a b = true ∨ recLe sf b a = true := fun a b =>
    lexLe_total (fieldVal a sf) (fieldVal b sf)
  have htrans : ∀ a b c : Record,
      recLe sf a b = true → recLe sf b c = true → recLe sf a c = true :=
    fun a b c hab hbc => lexLe_trans _ _ _ hab hbc
  refine ⟨pairwise_isortLe (recLe sf) htot htrans g, ?_⟩
  exact isortLe_of_pairwise (recLe sf) (isortLe (recLe sf) g)
    (pairwise_isortLe (recLe sf) htot htrans g)

/-- Witness for C4 at a concrete two-record group. -/
theorem c4_group_sort_witness :
    (∀ r ∈ gEx4, (Record.get r pinNameKey).isSome = true) ∧
    (List.Pairwise
       (fun a b => lexLe (fieldVal a pinNameKey) (fieldVal b pinNameKey) = true)
       (sortGroup pinNameKey gEx4) ∧
     sortGroup pinNameKey (sortGroup pinNameKey gEx4) = sortGroup pinNameKey gEx4) :=
  ⟨by decide, c4_group_sort pinNameKey gEx4 (by decide)⟩

/-- Appending a record to its key's group only adds that record to the
flattened contents (as a multiset). -/
theorem updateGroups_join_perm (k : Str) (r : Record) :
    ∀ gs : List (Str × List Record),
      List.Perm (((updateGroups gs k r).map Prod.snd).flatten)
        ((gs.map Prod.snd).flatten ++ [r]) := by
  intro gs
  induction gs with
  | nil => simp [updateGroups]
  | cons p gs ih =>
      simp only [updateGroups]
      by_cases h : p.1 = k
      · rw [if_pos h]
        simp only [List.map_cons, List.flatten_cons, List.append_assoc]
        exact List.Perm.append_left p.2 List.perm_append_comm
      · rw [if_neg h]
        simp only [List.map_cons, List.flatten_cons, List.append_assoc]
        exact List.Perm.append_left p.2 ih

/-- Appending a record whose grouping-field value is `k` to the group of
key `k` preserves the invariant that every member of every group carries
its group's key. -/
theorem updateGroups_key (gf k : Str) (r : Record) (hr : Record.get r gf = some k) :
    ∀ gs : List (Str × List Record),
      (∀ p ∈ gs, ∀ x ∈ p.2, Record.get x gf = some p.1) →
      ∀ p ∈ updateGroups gs k r, ∀ x ∈ p.2, Record.get x gf = some p.1 := by
  intro gs
  induction gs with
  | nil =>
      intro _ p hp x hx
      simp only [updateGroups, List.mem_singleton] at hp
      rw [hp] at hx ⊢
      simp only [List.mem_singleton] at hx
      rw [hx]
      exact hr
  | cons q gs ih =>
      intro hinv p hp x hx
      simp only [updateGroups] at hp
      by_cases h : q.1 = k
      · rw [if_pos h] at hp
        rcases List.mem_cons.mp hp with heq | hp
        · rw [heq] at hx
          rcases List.mem_append.mp hx with hx2 | hx2
          · rw [heq]
            exact hinv q (by simp) x hx2
          · rw [List.mem_singleton] at hx2
            rw [heq, hx2, hr, h]
        · exact hinv p (List.mem_cons_of_mem q hp) x hx
      · rw [if_neg h] at hp
        rcases List.mem_cons.mp hp with heq | hp
        · rw [heq] at hx ⊢
          exact hinv q (by simp) x hx
        · exact ih (fun p2 hp2 => hinv p2 (List.mem_cons_of_mem q hp2)) p hp x hx

/-- Appending a record to a group map keeps every group nonempty. -/
theorem updateGroups_ne_nil (k : Str) (r : Record) :
    ∀ gs : List (Str × List Record), (∀ p ∈ gs, p.2 ≠ []) →
      ∀ p ∈ updateGroups gs k r, p.2 ≠ [] := by
  intro gs
  induction gs with
  | nil =>
      intro _ p hp
      simp only [updateGroups, List.mem_singleton] at hp
      rw [hp]
      simp
  | cons q gs ih =>
      intro hinv p hp
      simp only [updateGroups] at hp
      by_cases h : q.1 = k
      · rw [if_pos h] at hp
        rcases List.mem_cons.mp hp with heq | hp
        · rw [heq]
          simp
        · exact hinv p (List.mem_cons_of_mem q hp)
      · rw [if_neg h] at hp
        rcases List.mem_cons.mp hp with heq | hp
        · rw [heq]
          exact hinv q (by simp)
        · exact ih (fun p2 hp2 => hinv p2 (List.mem_cons_of_mem q hp2)) p hp

/-- The three invariants of the grouping loop, over any starting group
map: the flattened result is a permutation of the starting contents plus
the processed records; the every-member-carries-its-key invariant is
preserved; and the every-group-nonempty invariant is preserved. -/
theorem groupRecords_spec (gf : Str) :
    ∀ (rs : List Record) (gs gs' : List (Str × List Record)),
      groupRecords gf rs gs = some gs' →
      List.Perm ((gs'.map Prod.snd).flatten) ((gs.map Prod.snd).flatten ++ rs) ∧
      ((∀ p ∈ gs, ∀ x ∈ p.2, Record.get x gf = some p.1) →
        ∀ p ∈ gs', ∀ x ∈ p.2, Record.get x gf = some p.1) ∧
      ((∀ p ∈ gs, p.2 ≠ []) → ∀ p ∈ gs', p.2 ≠ []) := by
  intro rs
  induction rs with
  | nil =>
      intro gs gs' h
      simp only [groupRecords, Option.some.injEq] at h
      rw [← h]
      exact ⟨by simp, fun hb => hb, fun hb => hb⟩
  | cons r rs ih =>
      intro gs gs' h
      simp only [groupRecords] at h
      cases hk : Record.get r gf with
      | none => rw [hk] at h; exact absurd h (by simp)
      | some k =>
          rw [hk] at h
          obtain ⟨hperm, hkey, hne⟩ := ih (updateGroups gs k r) gs' h
          refine ⟨?_, ?_, ?_⟩
          · have h2 : List.Perm (((updateGroups gs k r).map Prod.snd).flatten ++ rs)
                ((((gs.map Prod.snd).flatten ++ [r]) ++ rs)) :=
              List.Perm.append_right rs (updateGroups_join_perm k r gs)
            rw [List.append_assoc, List.singleton_append] at h2
            exact hperm.trans h2
          · intro hbase
            exact hkey (updateGroups_key gf k r hk gs hbase)
          · intro hbase
            exact hne (updateGroups_ne_nil k r gs hbase)

/-- C5: when grouping succeeds (every record carries the grouping
field), the result is a partition of the record sequence: the multiset
union (flattening) of all groups is a permutation of the original
records, and every member of every group has a grouping-field value
byte-for-byte equal to its group's key. -/
theorem c5_group_partition (gf : Str) (records : List Record)
    (gs : List (Str × List Record)) (h : groupAll gf records = some gs) :
    List.Perm ((gs.map Prod.snd).flatten) records ∧
    ∀ p ∈ gs, ∀ x ∈ p.2, Record.get x gf = some p.1 := by
  obtain ⟨hperm, hkey, _⟩ := groupRecords_spec gf records [] gs h
  exact ⟨by simpa using hperm, hkey (by simp)⟩

/-- Witness for C5 at a concrete record sequence grouped by field
`B`. -/
theorem c5_group_partition_witness :
    groupAll bKey recsEx = some gsEx ∧
    List.Perm ((gsEx.map Prod.snd).flatten) recsEx :=
  ⟨by decide, (c5_group_partition bKey recsEx gsEx (by decide)).1⟩

/-- A successful pin emission yields exactly one pin per record. -/
theorem emitPins_len (n u : Nat) : ∀ (g : List Record) (i : Nat) (ps : List Pin),
    emitPins n u g i = some ps → ps.length = g.length := by
  intro g
  induction g with
  | nil =>
      intro i ps h
      simp only [emitPins, Option.some.injEq] at h
      rw [← h]
      rfl
  | cons r rs ih =>
      intro i ps h
      simp only [emitPins] at h
      cases h1 : Record.get r pinKey with
      | none => rw [h1] at h; exact absurd h (by simp)
      | some num =>
          cases h2 : Record.get r pinNameKey with
          | none => rw [h1, h2] at h; exact absurd h (by simp)
          | some name =>
              rw [h1, h2] at h
              cases h3 : emitPins n u rs (i + 1) with
              | none => rw [h3] at h; exact absurd h (by simp)
              | some ps2 =>
                  rw [h3] at h
                  simp only [Option.some.injEq] at h
                  rw [← h]
                  simp [ih (i + 1) ps2 h3]

/-- C10: when grouping succeeds, every group in the result is nonempty —
a key appears only because at least one record carries it — so a
successfully emitted unit for any group has at least one pin line. -/
theorem c10_groups_nonempty (gf : Str) (records : List Record)
    (gs : List (Str × List Record)) (h : groupAll gf records = some gs) :
    ∀ p ∈ gs, p.2 ≠ [] ∧ (∃ r ∈ records, Record.get r gf = some p.1) ∧
      ∀ u su, emitUnit u p.2 = some su → su.pins ≠ [] := by
  obtain ⟨hperm, hkey, hne⟩ := groupRecords_spec gf records [] gs h
  intro p hp
  have hpne : p.2 ≠ [] := hne (by simp) p hp
  refine ⟨hpne, ?_, ?_⟩
  · obtain ⟨x, hx⟩ := List.exists_mem_of_ne_nil p.2 hpne
    refine ⟨x, ?_, hkey (by simp) p hp x hx⟩
    have hxj : x ∈ (gs.map Prod.snd).flatten :=
      List.mem_flatten.mpr ⟨p.2, List.mem_map.mpr ⟨p, hp, rfl⟩, hx⟩
    have := hperm.mem_iff.mp hxj
    simpa using this
  · intro u su hsu
    simp only [emitUnit] at hsu
    cases hps : emitPins p.2.length u p.2 0 with
    | none => rw [hps] at hsu; exact absurd hsu (by simp)
    | some ps =>
        rw [hps] at hsu
        simp only [Option.some.injEq] at hsu
        rw [← hsu]
        have hlen := emitPins_len p.2.length u p.2 0 ps hps
        intro hnil
        have : ps = [] := hnil
        rw [this] at hlen
        exact hpne (List.eq_nil_of_length_eq_zero (by simpa using hlen.symm))

/-- Witness for C10 at the concrete grouping of `recsEx` by `B`. -/
theorem c10_groups_nonempty_witness :
    groupAll bKey recsEx = some gsEx ∧ (gsEx.getD 0 default).2 ≠ [] :=
  ⟨by decide,
   (c10_groups_nonempty bKey recsEx gsEx (by decide) (gsEx.getD 0 default) (by decide)).1⟩

/-- Every pin of a successful emission carries the geometry `pinOf`
assigns to its index (offset by the starting index of the loop). -/
theorem emitPins_geom (n u : Nat) : ∀ (g : List Record) (i : Nat) (ps : List Pin),
    emitPins n u g i = some ps →
    ∀ j, j < g.length → ∃ name num, ps.getD j default = pinOf n u (i + j) name num := by
  intro g
  induction g with
  | nil => intro i ps _ j hj; simp at hj
  | cons r rs ih =>
      intro i ps h j hj
      simp only [emitPins] at h
      cases h1 : Record.get r pinKey with
      | none => rw [h1] at h; exact absurd h (by simp)
      | some num =>
          cases h2 : Record.get r pinNameKey with
          | none => rw [h1, h2] at h; exact absurd h (by simp)
          | some name =>
              rw [h1, h2] at h
              cases h3 : emitPins n u rs (i + 1) with
              | none => rw [h3] at h; exact absurd h (by simp)
              | some ps2 =>
                  rw [h3] at h
                  simp only [Option.some.injEq] at h
                  rw [← h]
                  cases j with
                  | zero => exact ⟨name, num, by simp⟩
                  | succ j2 =>
                      obtain ⟨nm, no, hK⟩ := ih (i + 1) ps2 h3 j2 (by simpa using hj)
                      refine ⟨nm, no, ?_⟩
                      rw [List.getD_cons_succ, hK]
                      have : i + 1 + j2 = i + (j2 + 1) := by omega
                      rw [this]

/-- The geometry of a first-half pin. -/
theorem pinOf_left (n u i : Nat) (name num : Str) (h : i < n / 2) :
    (pinOf n u i name num).posx = 0 ∧
    (pinOf n u i name num).posy = -((i * 100 : Nat) : Int) ∧
    (pinOf n u i name num).orient = 'R' := by
  simp [pinOf, h]

/-- The geometry of a second-half pin. -/
theorem pinOf_right (n u i : Nat) (name num : Str) (h : ¬ i < n / 2) :
    (pinOf n u i name num).posx = 3000 ∧
    (pinOf n u i name num).posy = -(((i - n / 2) * 100 : Nat) : Int) ∧
    (pinOf n u i name num).orient = 'L' := by
  simp [pinOf, h]

/-- C2: a successfully emitted unit for a group of `n` records has body
half-height `n / 2 * 100 + 50` and one pin per record; the pins of index
`i < n / 2` are right-facing (`R`) at `x = 0` with printed
`y = -(i * 100)`, and the remaining pins are left-facing (`L`) at
`x = 3000` with printed `y = -((i - n / 2) * 100)`.  (With `n = 3` this
gives half-height 150, one right-facing and two left-facing pins; see
the witness.) -/
theorem c2_unit_geometry (u : Nat) (g : List Record) (su : SymUnit)
    (h : emitUnit u g = some su) :
    su.halfHeight = g.length / 2 * 100 + 50 ∧
    su.pins.length = g.length ∧
    ∀ i, i < g.length →
      ((i < g.length / 2 →
        (su.pins.getD i default).posx = 0 ∧
        (su.pins.getD i default).posy = -((i * 100 : Nat) : Int) ∧
        (su.pins.getD i default).orient = 'R') ∧
       (g.length / 2 ≤ i →
        (su.pins.getD i default).posx = 3000 ∧
        (su.pins.getD i default).posy = -(((i - g.length / 2) * 100 : Nat) : Int) ∧
        (su.pins.getD i default).orient = 'L')) := by
  simp only [emitUnit] at h
  cases hps : emitPins g.length u g 0 with
  | none => rw [hps] at h; exact absurd h (by simp)
  | some ps =>
      rw [hps] at h
      simp only [Option.some.injEq] at h
      rw [← h]
      refine ⟨rfl, emitPins_len g.length u g 0 ps hps, ?_⟩
      intro i hi
      obtain ⟨name, num, hK⟩ := emitPins_geom g.length u g 0 ps hps i hi
      rw [Nat.zero_add] at hK
      constructor
      · intro hlt
        simp only [hK]
        exact pinOf_left g.length u i name num hlt
      · intro hge
        simp only [hK]
        exact pinOf_right g.length u i name num (by omega)

/-- Witness for C2 at the concrete three-record group `gEx3`: half-height
`floor(3/2)*100 + 50 = 150`, one right-facing pin and two left-facing
pins. -/
theorem c2_unit_geometry_witness :
    emitUnit 1 gEx3 = some suEx3 ∧ suEx3.halfHeight = 150 ∧ suEx3.pins.length = 3 ∧
    (suEx3.pins.getD 0 default).orient = 'R' ∧ (suEx3.pins.getD 0 default).posx = 0 ∧
    (suEx3.pins.getD 1 default).orient = 'L' ∧ (suEx3.pins.getD 1 default).posx = 3000 ∧
    (suEx3.pins.getD 2 default).orient = 'L' ∧ (suEx3.pins.getD 2 default).posy = -100 := by
  have h := c2_unit_geometry 1 gEx3 suEx3 (by decide)
  refine ⟨by decide, h.1.trans (by decide), h.2.1.trans (by decide), ?_, ?_, ?_, ?_, ?_, ?_⟩
  · exact ((h.2.2 0 (by decide)).1 (by decide)).2.2
  · exact ((h.2.2 0 (by decide)).1 (by decide)).1
  · exact ((h.2.2 1 (by decide)).2 (by decide)).2.2
  · exact ((h.2.2 1 (by decide)).2 (by decide)).1
  · exact ((h.2.2 2 (by decide)).2 (by decide)).2.2
  · exact (((h.2.2 2 (by decide)).2 (by decide)).2.1).trans (by decide)

/-- A record missing `Pin` or `Pin Name` anywhere in a group makes the
whole pin loop fail (the `unwrap` panic). -/
theorem emitPins_none (n u : Nat) : ∀ (g : List Record) (i : Nat) (r : Record), r ∈ g →
    (Record.get r pinKey = none ∨ Record.get r pinNameKey = none) →
    emitPins n u g i = none := by
  intro g
  induction g with
  | nil => intro i r hr; simp at hr
  | cons x xs ih =>
      intro i r hr hmiss
      rcases List.mem_cons.mp hr with heq | hr
      · rw [heq] at hmiss
        simp only [emitPins]
        rcases hmiss with hm | hm
        · rw [hm]
        · cases h1 : Record.get x pinKey with
          | none => rfl
          | some num => rw [hm]
      · simp only [emitPins]
        cases h1 : Record.get x pinKey with
        | none => rfl
        | some num =>
            cases h2 : Record.get x pinNameKey with
            | none => rfl
            | some name => rw [ih (i + 1) r hr hmiss]

/-- A group with a failing pin loop makes the whole emission fail, with
no output at all. -/
theorem emitAll_none (p : Str × List Record)
    (hu : ∀ u, emitUnit u p.2 = none) :
    ∀ (gs : List (Str × List Record)) (u : Nat), p ∈ gs → emitAll gs u = none := by
  intro gs
  induction gs with
  | nil => intro u hp; simp at hp
  | cons q qs ih =>
      intro u hp
      rcases List.mem_cons.mp hp with heq | hp
      · simp only [emitAll]
        rw [← heq, hu u]
      · simp only [emitAll]
        cases hq : emitUnit u q.2 with
        | none => rfl
        | some su => rw [ih (u + 1) hp]

/-- C7: if any record in any group lacks a `Pin` or a `Pin Name` field,
the whole emission aborts with no output: in the source the failing
`unwrap` panics while the library text exists only in the in-memory
string, and `output.lib` is created and written only after the loop, so
no partial pin output is produced for that run. -/
theorem c7_missing_field_aborts (gs : List (Str × List Record))
    (h : ∃ p, p ∈ gs ∧ ∃ r, r ∈ p.2 ∧
      (Record.get r pinKey = none ∨ Record.get r pinNameKey = none)) :
    emitLibrary gs = none := by
  obtain ⟨p, hp, r, hr, hmiss⟩ := h
  have hu : ∀ u, emitUnit u p.2 = none := by
    intro u
    simp only [emitUnit]
    rw [emitPins_none p.2.length u p.2 0 r hr hmiss]
  exact emitAll_none p hu gs 1 hp

/-- Witness for C7 at the concrete grouping `gsBad`, whose record has a
`Pin` but no `Pin Name`. -/
theorem c7_missing_field_aborts_witness :
    (∃ p, p ∈ gsBad ∧ ∃ r, r ∈ p.2 ∧
      (Record.get r pinKey = none ∨ Record.get r pinNameKey = none)) ∧
    emitLibrary gsBad = none :=
  ⟨⟨(['0'], [⟨[(pinKey, ['1'])]⟩]), by decide, ⟨[(pinKey, ['1'])]⟩, by decide,
    Or.inr (by decide)⟩,
   c7_missing_field_aborts gsBad
     ⟨(['0'], [⟨[(pinKey, ['1'])]⟩]), by decide, ⟨[(pinKey, ['1'])]⟩, by decide,
      Or.inr (by decide)⟩⟩

/-- Inserting a key that is not yet present appends a new entry. -/
theorem insertField_fresh (k v : Str) : ∀ fs : List (Str × Str),
    k ∉ fs.map Prod.fst → insertField fs k v = fs ++ [(k, v)] := by
  intro fs
  induction fs with
  | nil => intro _; rfl
  | cons p fs ih =>
      intro hk
      simp only [List.map_cons, List.mem_cons] at hk
      push_neg at hk
      simp only [insertField]
      rw [if_neg (fun h => hk.1 h.symm), ih hk.2]
      rfl

/-- Folding fresh, pairwise-distinct keys into a field map appends one
entry per key. -/
theorem foldl_insert_len : ∀ (l : List (Str × Str)) (acc : List (Str × Str)),
    (l.map Prod.fst).Nodup → (∀ p ∈ l, p.1 ∉ acc.map Prod.fst) →
    (l.foldl (fun fs p => insertField fs p.1 p.2) acc).length = acc.length + l.length := by
  intro l
  induction l with
  | nil => intro acc _ _; simp
  | cons q l ih =>
      intro acc hnd hfresh
      rw [List.foldl_cons, insertField_fresh q.1 q.2 acc (hfresh q (by simp))]
      simp only [List.map_cons, List.nodup_cons] at hnd
      have hstep : ∀ p ∈ l, p.1 ∉ (acc ++ [(q.1, q.2)]).map Prod.fst := by
        intro p hp
        simp only [List.map_append, List.mem_append, List.map_cons, List.map_nil,
          List.mem_singleton]
        push_neg
        refine ⟨hfresh p (List.mem_cons_of_mem q hp), fun hpq => ?_⟩
        exact hnd.1 (hpq ▸ List.mem_map.mpr ⟨p, hp, rfl⟩)
      rw [ih (acc ++ [(q.1, q.2)]) hnd.2 hstep]
      simp only [List.length_append, List.length_cons, List.length_nil]
      omega

/-- C9 (amended): when the header list is duplicate-free (as the spec's
data model requires of header lists) and the value row has the same
length — the only condition under which `Record::new` is called — the
stored record's field map has exactly one entry per header name.  When a
header name repeats, insertion is last-value-wins and the repeated names
collapse into a single entry, so the count falls short of the header
count (see the counterexample). -/
theorem c9_field_count (headers values : List Str)
    (hnd : headers.Nodup) (hlen : headers.length = values.length) :
    (Record.new headers values).fields.length = headers.length := by
  have hz : (headers.zip values).map Prod.fst = headers :=
    List.map_fst_zip headers values (le_of_eq hlen)
  have hznd : ((headers.zip values).map Prod.fst).Nodup := by
    rw [hz]; exact hnd
  have hzlen : (headers.zip values).length = headers.length := by
    rw [List.length_zip]; omega
  have h := foldl_insert_len (headers.zip values) [] hznd (by simp)
  simp only [Record.new]
  rw [h, hzlen]
  simp

/-- Witness for C9 (amended) at a concrete duplicate-free header list of
length two. -/
theorem c9_field_count_witness :
    ([['P'], ['Q']] : List Str).Nodup ∧
    ([['P'], ['Q']] : List Str).length = ([['1'], ['2']] : List Str).length ∧
    (Record.new [['P'], ['Q']] [['1'], ['2']]).fields.length =
      ([['P'], ['Q']] : List Str).length :=
  ⟨by decide, by decide, c9_field_count [['P'], ['Q']] [['1'], ['2']] (by decide) (by decide)⟩

/-- C9 counterexample: the input `exLines9` has the header line `A  A`
(two names, one repeated) and the data line `1  2`, which is stored as a
Record; the stored record's field map has 1 entry, not 2 — the repeated
name collapsed, with the last value (`2`) winning — so the claim that
the field count always equals the header count fails. -/
theorem c9_counterexample :
    (runScanner exLines9).headers.length = 2 ∧
    ((runScanner exLines9).records.getD 0 default).fields.length = 1 ∧
    Record.get ((runScanner exLines9).records.getD 0 default) ['A'] = some ['2'] ∧
    ¬ (((runScanner exLines9).records.getD 0 default).fields.length =
        (runScanner exLines9).headers.length) := by decide

/-- C3 (code bug, evaluated at the failing input): with the two headers
`Pin` and `Pin Name`, a parsed record, group selector 0 (valid) and sort
selector 2 (out of range, since 2 ≥ 2), the program's control flow forms
the groups FIRST, only then prints the `Invalid field index` report, and
then panics on the out-of-bounds `&headers[sort_field_index]` — it does
not halt before grouping as the spec requires (the spec itself flags the
source's continuation past the report as a defect). -/
theorem c3_selector_out_of_range_bug :
    pHeaders.length = 2 ∧
    pipelineTrace pHeaders [rEx1] 0 2 =
      [Ev.groupsFormed, Ev.reportInvalid, Ev.panicked] := by decide

end SymGen
